import Mathlib

/-!
Verification of the checkyoself reconciliation core (src/main.rs).

The Rust HashMap from path to FileMeta is modelled as an association list
together with lookup and overwrite-insert operations; iteration order of a
map is the order of the list.  The functions get_reference_by_hash,
verify_and_update and hash_files_parallel are translated from the source.
Console printing and JSON serialization are not modelled; the content of
the snapshot written back by verify_and_update is recorded in the
`written` field of the run result, and per-entry classification is
recorded as a Verdict mirroring which branch of the loop body ran.
-/

/-- Mirrors struct FileMeta of src/main.rs: blake3 digest hex string,
modification time in seconds since epoch (u64, modelled as Nat; only
compared for equality), and byte size (i64, modelled as Int; only compared
with zero). -/
structure FileMeta where
  hash : String
  modified : Nat
  size : Int
deriving DecidableEq, Repr

/-- A HashMap from path to FileMeta, modelled as an association list in
iteration order. -/
abbrev SnapshotMap := List (String × FileMeta)

/-- Lookup by path: HashMap get. -/
def smLookup : SnapshotMap → String → Option FileMeta
  | [], _ => none
  | (q, m) :: rest, p => if q = p then some m else smLookup rest p

/-- Insert by path with overwrite: HashMap insert. -/
def smInsert : SnapshotMap → String → FileMeta → SnapshotMap
  | [], p, v => [(p, v)]
  | (q, m) :: rest, p, v =>
    if q = p then (p, v) :: rest else (q, m) :: smInsert rest p v

/-- A HashMap from digest to list of paths, modelled as an association
list. -/
abbrev HashIndex := List (String × List String)

/-- Lookup by digest: HashMap get on the inverted index. -/
def idxLookup : HashIndex → String → Option (List String)
  | [], _ => none
  | (k, ps) :: rest, h => if k = h then some ps else idxLookup rest h

/-- Mirrors reference_by_hash.entry(hash).or_default().push(path): append
the path to the bucket of the digest, creating the bucket when absent. -/
def idxPush : HashIndex → String → String → HashIndex
  | [], h, p => [(h, [p])]
  | (k, ps) :: rest, h, p =>
    if k = h then (k, ps ++ [p]) :: rest else (k, ps) :: idxPush rest h p

/-- Mirrors fn get_reference_by_hash (src/main.rs lines 121-130): fold over
the reference map pushing each path into the bucket of its digest. -/
def get_reference_by_hash (reference : SnapshotMap) : HashIndex :=
  reference.foldl (fun idx pm => idxPush idx pm.2.hash pm.1) []

/-- Which branch of the loop body of verify_and_update ran for one current
entry.  `unreported` is the branch at src/main.rs lines 180-199 where the
digest is found in the inverted index but the size is zero: the source
increments no counter and prints nothing there. -/
inductive Verdict where
  | matched
  | mismatched
  | skippedStale
  | moved (prevPaths : List String)
  | extra
  | unreported
deriving DecidableEq, Repr

/-- Mirrors the body of the classification loop of fn verify_and_update
(src/main.rs lines 146-215) for a single current entry: returns the branch
taken and the reference map after the conditional inserts of that branch. -/
def classifyStep (update : Bool) (idx : HashIndex) (reference : SnapshotMap)
    (path : String) (currentMeta : FileMeta) : Verdict × SnapshotMap :=
  match smLookup reference path with
  | some expectedMeta =>
    if currentMeta.hash = expectedMeta.hash then
      (Verdict.matched, reference)
    else if currentMeta.modified = expectedMeta.modified then
      (Verdict.mismatched, reference)
    else
      (Verdict.skippedStale,
        if update then smInsert reference path currentMeta else reference)
  | none =>
    match idxLookup idx currentMeta.hash with
    | some prevPaths =>
      if currentMeta.size ≠ 0 then
        (Verdict.moved prevPaths,
          if update then smInsert reference path currentMeta else reference)
      else
        (Verdict.unreported, reference)
    | none =>
      (Verdict.extra,
        if update then smInsert reference path currentMeta else reference)

/-- The classification loop of fn verify_and_update: visits the current
entries in iteration order, threading the (possibly mutated) reference
map, and collects the branch taken per path. -/
def verifyLoop (update : Bool) (idx : HashIndex) :
    List (String × FileMeta) → SnapshotMap →
      List (String × Verdict) × SnapshotMap
  | [], reference => ([], reference)
  | (path, cm) :: rest, reference =>
    let step := classifyStep update idx reference path cm
    let restRun := verifyLoop update idx rest step.2
    ((path, step.1) :: restRun.1, restRun.2)

/-- The four counters of fn verify_and_update. -/
structure Counts where
  matched : Nat
  moved : Nat
  mismatched : Nat
  extra : Nat
deriving DecidableEq, Repr

/-- The counter increment performed by the branch that ran; the
skippedStale and unreported branches increment nothing. -/
def countsAdd (c : Counts) : Verdict → Counts
  | Verdict.matched => { c with matched := c.matched + 1 }
  | Verdict.mismatched => { c with mismatched := c.mismatched + 1 }
  | Verdict.skippedStale => c
  | Verdict.moved _ => { c with moved := c.moved + 1 }
  | Verdict.extra => { c with extra := c.extra + 1 }
  | Verdict.unreported => c

/-- Accumulate the counters over the collected branches, starting from
zero as the source does. -/
def tallyCounts (vs : List (String × Verdict)) : Counts :=
  vs.foldl (fun c pv => countsAdd c pv.2) ⟨0, 0, 0, 0⟩

/-- Observable outcome of one call of fn verify_and_update: the branch
taken per current entry, the four counters, the reference map after the
run, the content written back to the snapshot file (none when update is
false), and the returned boolean mismatched > 0. -/
structure RunResult where
  verdicts : List (String × Verdict)
  counts : Counts
  reference : SnapshotMap
  written : Option SnapshotMap
  hasMismatch : Bool
deriving DecidableEq, Repr

/-- Mirrors fn verify_and_update (src/main.rs lines 132-239): the inverted
index is built once before the loop; when update is set the snapshot file
is overwritten with the serialization of current.clone() (line 233), not
of the mutated reference map; the function returns mismatched > 0. -/
def verify_and_update (current : List (String × FileMeta))
    (reference : SnapshotMap) (update : Bool) : RunResult :=
  let idx := get_reference_by_hash reference
  let run := verifyLoop update idx current reference
  let counts := tallyCounts run.1
  { verdicts := run.1
    counts := counts
    reference := run.2
    written := if update then some current else none
    hasMismatch := decide (counts.mismatched > 0) }

/-- Mirrors fn hash_files_parallel (src/main.rs lines 86-119).  The
fingerprint engine calculate_blake3 is abstracted as an oracle from path
to Option FileMeta (none when the call fails); the concurrent inserts
under the mutex are modelled as a fold over one arrival order of the
paths, an Ok result inserting its record and an Err result inserting
nothing.  Order independence of the resulting map content is proved
below over all permutations of the arrival order. -/
def hash_files_parallel (calcMeta : String → Option FileMeta)
    (paths : List String) : SnapshotMap :=
  paths.foldl (fun m path =>
    match calcMeta path with
    | some meta => smInsert m path meta
    | none => m) []

/-- The reference paths whose record carries a given digest, in reference
iteration order: the specification of the bucket content of the inverted
index. -/
def pathsWithHash (r : SnapshotMap) (d : String) : List String :=
  (r.filter (fun pm => decide (pm.2.hash = d))).map Prod.fst

/-- Lookup of the branch recorded for a path. -/
def vdLookup : List (String × Verdict) → String → Option Verdict
  | [], _ => none
  | (q, v) :: rest, p => if q = p then some v else vdLookup rest p

/-- Number of entries recorded as mismatched. -/
def misCount : List (String × Verdict) → Nat
  | [] => 0
  | (_, Verdict.mismatched) :: rest => misCount rest + 1
  | _ :: rest => misCount rest

/-- A concrete fingerprint oracle for evaluation: the path a succeeds with
a fixed record, every other path fails. -/
def onlyA : String → Option FileMeta :=
  fun q => if q = "a" then some ⟨"x", 1, 1⟩ else none

theorem smLookup_smInsert_self (m : SnapshotMap) (p : String) (v : FileMeta) :
    smLookup (smInsert m p v) p = some v := by
  induction m with
  | nil => simp [smInsert, smLookup]
  | cons head rest ih =>
    obtain ⟨q, mv⟩ := head
    by_cases h : q = p
    · simp [smInsert, h, smLookup]
    · simp [smInsert, h, smLookup, ih]

theorem smLookup_smInsert_ne (m : SnapshotMap) (p q : String) (v : FileMeta)
    (h : p ≠ q) : smLookup (smInsert m p v) q = smLookup m q := by
  induction m with
  | nil => simp [smInsert, smLookup, h]
  | cons head rest ih =>
    obtain ⟨k, mv⟩ := head
    by_cases hk : k = p
    · subst hk
      simp [smInsert, smLookup, h]
    · simp [smInsert, hk, smLookup, ih]

theorem smLookup_some_mem {r : SnapshotMap} {p : String} {m : FileMeta}
    (h : smLookup r p = some m) : (p, m) ∈ r := by
  induction r with
  | nil => simp [smLookup] at h
  | cons head rest ih =>
    obtain ⟨q, mv⟩ := head
    by_cases hq : q = p
    · subst hq
      simp [smLookup] at h
      simp [h]
    · simp [smLookup, hq] at h
      simp [ih h]

theorem mem_smLookup_some {r : SnapshotMap} {p : String} {m : FileMeta}
    (hnd : (r.map Prod.fst).Nodup) (h : (p, m) ∈ r) :
    smLookup r p = some m := by
  induction r with
  | nil => simp at h
  | cons head rest ih =>
    obtain ⟨q, mv⟩ := head
    simp only [List.map_cons, List.nodup_cons] at hnd
    rcases List.mem_cons.mp h with h | h
    · cases h
      simp [smLookup]
    · have hq : q ≠ p := by
        intro hqp
        exact hnd.1 (hqp ▸ (List.mem_map_of_mem Prod.fst h))
      simp [smLookup, hq, ih hnd.2 h]

theorem idxLookup_idxPush_self (idx : HashIndex) (h p : String) :
    idxLookup (idxPush idx h p) h = some ((idxLookup idx h).getD [] ++ [p]) := by
  induction idx with
  | nil => simp [idxPush, idxLookup]
  | cons head rest ih =>
    obtain ⟨k, ps⟩ := head
    by_cases hk : k = h
    · simp [idxPush, hk, idxLookup]
    · simp [idxPush, hk, idxLookup, ih]

theorem idxLookup_idxPush_ne (idx : HashIndex) (h p d : String) (hne : h ≠ d) :
    idxLookup (idxPush idx h p) d = idxLookup idx d := by
  induction idx with
  | nil => simp [idxPush, idxLookup, hne]
  | cons head rest ih =>
    obtain ⟨k, ps⟩ := head
    by_cases hk : k = h
    · subst hk
      simp [idxPush, idxLookup, hne]
    · simp [idxPush, hk, idxLookup, ih]

theorem pathsWithHash_cons (p : String) (m : FileMeta) (rest : SnapshotMap)
    (d : String) :
    pathsWithHash ((p, m) :: rest) d =
      if m.hash = d then p :: pathsWithHash rest d else pathsWithHash rest d := by
  by_cases h : m.hash = d <;> simp [pathsWithHash, h]

theorem idxBuild_go (l : SnapshotMap) (acc : HashIndex) (d : String) :
    idxLookup (l.foldl (fun idx pm => idxPush idx pm.2.hash pm.1) acc) d =
      match idxLookup acc d with
      | some b => some (b ++ pathsWithHash l d)
      | none =>
        if pathsWithHash l d = [] then none else some (pathsWithHash l d) := by
  induction l generalizing acc with
  | nil =>
    cases hacc : idxLookup acc d <;> simp [pathsWithHash, hacc]
  | cons head rest ih =>
    obtain ⟨p, m⟩ := head
    rw [List.foldl_cons, ih]
    by_cases hm : m.hash = d
    · subst hm
      rw [idxLookup_idxPush_self]
      cases hacc : idxLookup acc m.hash <;>
        simp [hacc, pathsWithHash_cons, List.append_assoc]
    · rw [idxLookup_idxPush_ne _ _ _ _ hm]
      cases hacc : idxLookup acc d <;> simp [hacc, pathsWithHash_cons, hm]

theorem idxLookup_get_reference_by_hash (r : SnapshotMap) (d : String) :
    idxLookup (get_reference_by_hash r) d =
      if pathsWithHash r d = [] then none else some (pathsWithHash r d) :=
  idxBuild_go r [] d

theorem mem_pathsWithHash {r : SnapshotMap} {d p : String} :
    p ∈ pathsWithHash r d ↔ ∃ m, (p, m) ∈ r ∧ m.hash = d := by
  simp only [pathsWithHash, List.mem_map, List.mem_filter, decide_eq_true_eq]
  constructor
  · rintro ⟨⟨q, m⟩, ⟨hmem, hh⟩, rfl⟩
    exact ⟨m, hmem, hh⟩
  · rintro ⟨m, hmem, hh⟩
    exact ⟨(p, m), ⟨hmem, hh⟩, rfl⟩

theorem count_pathsWithHash_eq_one {r : SnapshotMap} {p : String}
    {m : FileMeta} (hnd : (r.map Prod.fst).Nodup)
    (h : smLookup r p = some m) : (pathsWithHash r m.hash).count p = 1 := by
  induction r with
  | nil => simp [smLookup] at h
  | cons head rest ih =>
    obtain ⟨q, mv⟩ := head
    simp only [List.map_cons, List.nodup_cons] at hnd
    by_cases hq : q = p
    · subst hq
      simp [smLookup] at h
      subst h
      rw [pathsWithHash_cons, if_pos rfl, List.count_cons_self]
      have hnp : q ∉ pathsWithHash rest mv.hash := by
        intro hmem
        obtain ⟨m2, hm2, _⟩ := mem_pathsWithHash.mp hmem
        exact hnd.1 (List.mem_map_of_mem Prod.fst hm2)
      rw [List.count_eq_zero.mpr hnp]
    · simp only [smLookup, hq, if_false] at h
      rw [pathsWithHash_cons]
      by_cases hh : mv.hash = m.hash
      · rw [if_pos hh, List.count_cons_of_ne (fun hpq => hq hpq.symm)]
        exact ih hnd.2 h
      · rw [if_neg hh]
        exact ih hnd.2 h

theorem classifyStep_matched_eq (u : Bool) (idx : HashIndex)
    {reference : SnapshotMap} {path : String} {cm em : FileMeta}
    (hr : smLookup reference path = some em) (hh : cm.hash = em.hash) :
    classifyStep u idx reference path cm = (Verdict.matched, reference) := by
  simp [classifyStep, hr, hh]

theorem classifyStep_mismatched_eq (u : Bool) (idx : HashIndex)
    {reference : SnapshotMap} {path : String} {cm em : FileMeta}
    (hr : smLookup reference path = some em) (hh : cm.hash ≠ em.hash)
    (hm : cm.modified = em.modified) :
    classifyStep u idx reference path cm = (Verdict.mismatched, reference) := by
  simp [classifyStep, hr, hh, hm]

theorem classifyStep_skipped_eq (u : Bool) (idx : HashIndex)
    {reference : SnapshotMap} {path : String} {cm em : FileMeta}
    (hr : smLookup reference path = some em) (hh : cm.hash ≠ em.hash)
    (hm : cm.modified ≠ em.modified) :
    classifyStep u idx reference path cm =
      (Verdict.skippedStale,
        if u then smInsert reference path cm else reference) := by
  simp [classifyStep, hr, hh, hm]

theorem classifyStep_moved_eq (u : Bool) (idx : HashIndex)
    {reference : SnapshotMap} {path : String} {cm : FileMeta}
    {ps : List String} (hr : smLookup reference path = none)
    (hidx : idxLookup idx cm.hash = some ps) (hs : cm.size ≠ 0) :
    classifyStep u idx reference path cm =
      (Verdict.moved ps,
        if u then smInsert reference path cm else reference) := by
  simp [classifyStep, hr, hidx, hs]

theorem classifyStep_unreported_eq (u : Bool) (idx : HashIndex)
    {reference : SnapshotMap} {path : String} {cm : FileMeta}
    {ps : List String} (hr : smLookup reference path = none)
    (hidx : idxLookup idx cm.hash = some ps) (hs : cm.size = 0) :
    classifyStep u idx reference path cm = (Verdict.unreported, reference) := by
  simp [classifyStep, hr, hidx, hs]

theorem classifyStep_extra_eq (u : Bool) (idx : HashIndex)
    {reference : SnapshotMap} {path : String} {cm : FileMeta}
    (hr : smLookup reference path = none)
    (hidx : idxLookup idx cm.hash = none) :
    classifyStep u idx reference path cm =
      (Verdict.extra,
        if u then smInsert reference path cm else reference) := by
  simp [classifyStep, hr, hidx]

theorem verifyLoop_cons_fst (u : Bool) (idx : HashIndex) (p : String)
    (cm : FileMeta) (rest : List (String × FileMeta)) (r : SnapshotMap) :
    (verifyLoop u idx ((p, cm) :: rest) r).1 =
      (p, (classifyStep u idx r p cm).1) ::
        (verifyLoop u idx rest (classifyStep u idx r p cm).2).1 := rfl

theorem verifyLoop_cons_snd (u : Bool) (idx : HashIndex) (p : String)
    (cm : FileMeta) (rest : List (String × FileMeta)) (r : SnapshotMap) :
    (verifyLoop u idx ((p, cm) :: rest) r).2 =
      (verifyLoop u idx rest (classifyStep u idx r p cm).2).2 := rfl

theorem classifyStep_fst_congr (u₁ u₂ : Bool) (idx : HashIndex)
    (r₁ r₂ : SnapshotMap) (path : String) (cm : FileMeta)
    (h : smLookup r₁ path = smLookup r₂ path) :
    (classifyStep u₁ idx r₁ path cm).1 = (classifyStep u₂ idx r₂ path cm).1 := by
  unfold classifyStep
  rw [h]
  cases hr : smLookup r₂ path with
  | some em =>
    by_cases h1 : cm.hash = em.hash
    · simp [h1]
    · by_cases h2 : cm.modified = em.modified <;> simp [h1, h2]
  | none =>
    cases hi : idxLookup idx cm.hash with
    | some ps => by_cases hs : cm.size ≠ 0 <;> simp [hi, hs]
    | none => simp [hi]

theorem smLookup_classifyStep_snd_ne (u : Bool) (idx : HashIndex)
    (r : SnapshotMap) (path : String) (cm : FileMeta) (q : String)
    (hq : path ≠ q) :
    smLookup (classifyStep u idx r path cm).2 q = smLookup r q := by
  unfold classifyStep
  cases hr : smLookup r path with
  | some em =>
    by_cases h1 : cm.hash = em.hash
    · simp [h1]
    · by_cases h2 : cm.modified = em.modified
      · simp [h1, h2]
      · cases u <;> simp [h1, h2, smLookup_smInsert_ne _ _ _ _ hq]
  | none =>
    cases hi : idxLookup idx cm.hash with
    | some ps =>
      by_cases hs : cm.size ≠ 0
      · cases u <;> simp [hi, hs, smLookup_smInsert_ne _ _ _ _ hq]
      · simp [hi, hs]
    | none => cases u <;> simp [hi, smLookup_smInsert_ne _ _ _ _ hq]

theorem smLookup_classifyStep_snd_self_congr (u : Bool) (idx : HashIndex)
    (r₁ r₂ : SnapshotMap) (path : String) (cm : FileMeta)
    (h : smLookup r₁ path = smLookup r₂ path) :
    smLookup (classifyStep u idx r₁ path cm).2 path =
      smLookup (classifyStep u idx r₂ path cm).2 path := by
  unfold classifyStep
  rw [h]
  cases hr : smLookup r₂ path with
  | some em =>
    by_cases h1 : cm.hash = em.hash
    · simpa [h1] using h
    · by_cases h2 : cm.modified = em.modified
      · simpa [h1, h2] using h
      · cases u <;>
          simp [h1, h2, smLookup_smInsert_self, h]
  | none =>
    cases hi : idxLookup idx cm.hash with
    | some ps =>
      by_cases hs : cm.size ≠ 0
      · cases u <;> simp [hi, hs, smLookup_smInsert_self, h]
      · simpa [hi, hs] using h
    | none => cases u <;> simp [hi, smLookup_smInsert_self, h]

theorem classifyStep_false_snd (idx : HashIndex) (r : SnapshotMap)
    (path : String) (cm : FileMeta) :
    (classifyStep false idx r path cm).2 = r := by
  unfold classifyStep
  cases hr : smLookup r path with
  | some em =>
    by_cases h1 : cm.hash = em.hash
    · simp [h1]
    · by_cases h2 : cm.modified = em.modified <;> simp [h1, h2]
  | none =>
    cases hi : idxLookup idx cm.hash with
    | some ps => by_cases hs : cm.size ≠ 0 <;> simp [hi, hs]
    | none => simp [hi]

theorem smLookup_verifyLoop_snd_notMem (u : Bool) (idx : HashIndex)
    (l : List (String × FileMeta)) (r : SnapshotMap) (p : String)
    (hp : p ∉ l.map Prod.fst) :
    smLookup (verifyLoop u idx l r).2 p = smLookup r p := by
  induction l generalizing r with
  | nil => rfl
  | cons head rest ih =>
    obtain ⟨q, cm⟩ := head
    simp only [List.map_cons, List.mem_cons, not_or] at hp
    rw [verifyLoop_cons_snd, ih _ hp.2]
    exact smLookup_classifyStep_snd_ne u idx r q cm p (fun h => hp.1 h.symm)

theorem verifyLoop_fst_congr (u₁ u₂ : Bool) (idx : HashIndex)
    (l : List (String × FileMeta)) (r₁ r₂ : SnapshotMap)
    (hagree : ∀ q, q ∈ l.map Prod.fst → smLookup r₁ q = smLookup r₂ q)
    (hnd : (l.map Prod.fst).Nodup) :
    (verifyLoop u₁ idx l r₁).1 = (verifyLoop u₂ idx l r₂).1 := by
  induction l generalizing r₁ r₂ with
  | nil => rfl
  | cons head rest ih =>
    obtain ⟨p, cm⟩ := head
    simp only [List.map_cons, List.nodup_cons] at hnd
    rw [verifyLoop_cons_fst, verifyLoop_cons_fst,
      classifyStep_fst_congr u₁ u₂ idx r₁ r₂ p cm (hagree p (by simp))]
    congr 1
    apply ih
    · intro q hq
      have hpq : p ≠ q := fun h => hnd.1 (h ▸ hq)
      rw [smLookup_classifyStep_snd_ne u₁ idx r₁ p cm q hpq,
        smLookup_classifyStep_snd_ne u₂ idx r₂ p cm q hpq]
      exact hagree q (by simp [hq])
    · exact hnd.2

theorem verifyLoop_fst_update_indep (u : Bool) (idx : HashIndex)
    (l : List (String × FileMeta)) (r : SnapshotMap)
    (hnd : (l.map Prod.fst).Nodup) :
    (verifyLoop u idx l r).1 = (verifyLoop false idx l r).1 :=
  verifyLoop_fst_congr u false idx l r r (fun _ _ => rfl) hnd

theorem verifyLoop_false_snd (idx : HashIndex)
    (l : List (String × FileMeta)) (r : SnapshotMap) :
    (verifyLoop false idx l r).2 = r := by
  induction l generalizing r with
  | nil => rfl
  | cons head rest ih =>
    obtain ⟨q, cm⟩ := head
    rw [verifyLoop_cons_snd, classifyStep_false_snd, ih]

theorem vdLookup_some_mem {vs : List (String × Verdict)} {p : String}
    {v : Verdict} (h : vdLookup vs p = some v) : (p, v) ∈ vs := by
  induction vs with
  | nil => simp [vdLookup] at h
  | cons head rest ih =>
    obtain ⟨q, w⟩ := head
    by_cases hq : q = p
    · subst hq
      simp [vdLookup] at h
      simp [h]
    · simp only [vdLookup, hq, if_false] at h
      simp [ih h]

theorem vdLookup_verifyLoop_at_entry (u : Bool) (idx : HashIndex)
    (l : List (String × FileMeta)) (r : SnapshotMap) (p : String)
    (cm : FileMeta) (hnd : (l.map Prod.fst).Nodup) (hmem : (p, cm) ∈ l) :
    vdLookup (verifyLoop u idx l r).1 p =
      some (classifyStep u idx r p cm).1 := by
  induction l generalizing r with
  | nil => simp at hmem
  | cons head rest ih =>
    obtain ⟨q, cmq⟩ := head
    simp only [List.map_cons, List.nodup_cons] at hnd
    rw [verifyLoop_cons_fst]
    by_cases hq : q = p
    · subst hq
      have hcm : cm = cmq := by
        rcases List.mem_cons.mp hmem with h | h
        · exact congrArg Prod.snd h
        · exact absurd (List.mem_map_of_mem Prod.fst h) hnd.1
      subst hcm
      simp [vdLookup]
    · have hmem' : (p, cm) ∈ rest := by
        rcases List.mem_cons.mp hmem with h | h
        · exact absurd (congrArg Prod.fst h).symm hq
        · exact h
      simp only [vdLookup, hq, if_false]
      rw [ih _ hnd.2 hmem']
      exact congrArg some (classifyStep_fst_congr u u idx _ r p cm
        (smLookup_classifyStep_snd_ne u idx r q cmq p hq))

theorem smLookup_verifyLoop_snd_at_entry (u : Bool) (idx : HashIndex)
    (l : List (String × FileMeta)) (r : SnapshotMap) (p : String)
    (cm : FileMeta) (hnd : (l.map Prod.fst).Nodup) (hmem : (p, cm) ∈ l) :
    smLookup (verifyLoop u idx l r).2 p =
      smLookup (classifyStep u idx r p cm).2 p := by
  induction l generalizing r with
  | nil => simp at hmem
  | cons head rest ih =>
    obtain ⟨q, cmq⟩ := head
    simp only [List.map_cons, List.nodup_cons] at hnd
    rw [verifyLoop_cons_snd]
    by_cases hq : q = p
    · subst hq
      have hcm : cm = cmq := by
        rcases List.mem_cons.mp hmem with h | h
        · exact congrArg Prod.snd h
        · exact absurd (List.mem_map_of_mem Prod.fst h) hnd.1
      subst hcm
      exact smLookup_verifyLoop_snd_notMem u idx rest _ q hnd.1
    · have hmem' : (p, cm) ∈ rest := by
        rcases List.mem_cons.mp hmem with h | h
        · exact absurd (congrArg Prod.fst h).symm hq
        · exact h
      rw [ih _ hnd.2 hmem']
      exact smLookup_classifyStep_snd_self_congr u idx _ r p cm
        (smLookup_classifyStep_snd_ne u idx r q cmq p hq)

theorem tallyCounts_go_mismatched (vs : List (String × Verdict)) (c : Counts) :
    (vs.foldl (fun c pv => countsAdd c pv.2) c).mismatched =
      c.mismatched + misCount vs := by
  induction vs generalizing c with
  | nil => simp [misCount]
  | cons head rest ih =>
    obtain ⟨q, v⟩ := head
    rw [List.foldl_cons, ih]
    cases v with
    | mismatched =>
      simp [countsAdd, misCount]
      omega
    | matched => simp [countsAdd, misCount]
    | skippedStale => simp [countsAdd, misCount]
    | moved ps => simp [countsAdd, misCount]
    | extra => simp [countsAdd, misCount]
    | unreported => simp [countsAdd, misCount]

theorem tallyCounts_mismatched (vs : List (String × Verdict)) :
    (tallyCounts vs).mismatched = misCount vs := by
  unfold tallyCounts
  rw [tallyCounts_go_mismatched]
  simp

theorem misCount_pos_iff (vs : List (String × Verdict)) :
    0 < misCount vs ↔ ∃ p, (p, Verdict.mismatched) ∈ vs := by
  induction vs with
  | nil => simp [misCount]
  | cons head rest ih =>
    obtain ⟨q, v⟩ := head
    by_cases hv : v = Verdict.mismatched
    · subst hv
      constructor
      · intro _
        exact ⟨q, List.mem_cons_self _ _⟩
      · intro _
        simp [misCount]
    · rw [show misCount ((q, v) :: rest) = misCount rest by
        simp [misCount, hv], ih]
      constructor
      · rintro ⟨p, hp⟩
        exact ⟨p, List.mem_cons_of_mem _ hp⟩
      · rintro ⟨p, hp⟩
        rcases List.mem_cons.mp hp with h | h
        · exact absurd (congrArg Prod.snd h).symm hv
        · exact ⟨p, h⟩

theorem misCount_map_matched (l : List (String × FileMeta)) :
    misCount (l.map (fun pm => (pm.1, Verdict.matched))) = 0 := by
  induction l with
  | nil => rfl
  | cons head rest ih => simp [misCount, ih]

theorem verifyLoop_all_matched (u : Bool) (idx : HashIndex)
    (l : List (String × FileMeta)) (r : SnapshotMap)
    (hall : ∀ pm ∈ l, ∃ em, smLookup r pm.1 = some em ∧ pm.2.hash = em.hash) :
    (verifyLoop u idx l r).1 = l.map (fun pm => (pm.1, Verdict.matched)) ∧
    (verifyLoop u idx l r).2 = r := by
  induction l with
  | nil => exact ⟨rfl, rfl⟩
  | cons head rest ih =>
    obtain ⟨q, cm⟩ := head
    obtain ⟨em, hem, hh⟩ := hall (q, cm) (List.mem_cons_self _ _)
    have hstep : classifyStep u idx r q cm = (Verdict.matched, r) :=
      classifyStep_matched_eq u idx hem hh
    have hrest := ih (fun pm hpm => hall pm (List.mem_cons_of_mem _ hpm))
    constructor
    · rw [verifyLoop_cons_fst, hstep]
      dsimp only
      rw [hrest.1]
      rfl
    · rw [verifyLoop_cons_snd, hstep]
      dsimp only
      exact hrest.2

theorem scan_go (calcMeta : String → Option FileMeta) (l : List String)
    (acc : SnapshotMap) (p : String) :
    smLookup (l.foldl (fun m path =>
      match calcMeta path with
      | some meta => smInsert m path meta
      | none => m) acc) p =
      match calcMeta p with
      | some v => if p ∈ l then some v else smLookup acc p
      | none => smLookup acc p := by
  induction l generalizing acc with
  | nil =>
    cases hc : calcMeta p <;> simp [hc]
  | cons q rest ih =>
    rw [List.foldl_cons, ih]
    by_cases hq : p = q
    · subst hq
      cases hc : calcMeta p with
      | some v => simp [hc, smLookup_smInsert_self]
      | none => simp [hc]
    · cases hc : calcMeta p with
      | some v =>
        by_cases hmem : p ∈ rest
        · simp [hc, hmem, hq]
        · cases hcq : calcMeta q with
          | some w =>
            simp [hc, hcq, hmem, hq,
              smLookup_smInsert_ne _ _ _ _ (Ne.symm hq)]
          | none => simp [hc, hcq, hmem, hq]
      | none =>
        cases hcq : calcMeta q with
        | some w =>
          simp [hc, hcq, smLookup_smInsert_ne _ _ _ _ (Ne.symm hq)]
        | none => simp [hc, hcq]

theorem hash_files_parallel_lookup (calcMeta : String → Option FileMeta)
    (paths : List String) (p : String) :
    smLookup (hash_files_parallel calcMeta paths) p =
      if p ∈ paths then calcMeta p else none := by
  unfold hash_files_parallel
  rw [scan_go]
  cases hc : calcMeta p with
  | some v => by_cases hmem : p ∈ paths <;> simp [hmem, smLookup]
  | none => by_cases hmem : p ∈ paths <;> simp [hmem, smLookup]

theorem verify_and_update_verdicts (current : List (String × FileMeta))
    (r : SnapshotMap) (u : Bool) :
    (verify_and_update current r u).verdicts =
      (verifyLoop u (get_reference_by_hash r) current r).1 := rfl

theorem verify_and_update_counts (current : List (String × FileMeta))
    (r : SnapshotMap) (u : Bool) :
    (verify_and_update current r u).counts =
      tallyCounts (verifyLoop u (get_reference_by_hash r) current r).1 := rfl

theorem verify_and_update_reference (current : List (String × FileMeta))
    (r : SnapshotMap) (u : Bool) :
    (verify_and_update current r u).reference =
      (verifyLoop u (get_reference_by_hash r) current r).2 := rfl

theorem verify_and_update_written (current : List (String × FileMeta))
    (r : SnapshotMap) (u : Bool) :
    (verify_and_update current r u).written =
      (if u then some current else none) := rfl

theorem verify_and_update_hasMismatch (current : List (String × FileMeta))
    (r : SnapshotMap) (u : Bool) :
    (verify_and_update current r u).hasMismatch =
      decide (0 <
        (tallyCounts (verifyLoop u (get_reference_by_hash r) current r).1).mismatched) := rfl

/-- C1 (code bug): with update set, fn verify_and_update persists the
current map, not the mutated reference map (src/main.rs line 233 writes
current.clone()).  At this input the reference entry old, whose path is
absent from the current scan, is still present in the run-final reference
map yet absent from the written snapshot, so the written snapshot differs
from the mutated reference map and the entry is deleted from storage. -/
theorem claim_C1_written_snapshot_is_current_map :
    (verify_and_update [("new", ⟨"b", 2, 1⟩)] [("old", ⟨"a", 1, 1⟩)]
        true).written = some [("new", ⟨"b", 2, 1⟩)] ∧
    smLookup (verify_and_update [("new", ⟨"b", 2, 1⟩)] [("old", ⟨"a", 1, 1⟩)]
        true).reference "old" = some ⟨"a", 1, 1⟩ ∧
    smLookup ((verify_and_update [("new", ⟨"b", 2, 1⟩)] [("old", ⟨"a", 1, 1⟩)]
        true).written.getD []) "old" = none := by
  decide

/-- C2 (code bug): a zero-size current entry at a new path whose digest is
in the inverted index takes the branch of src/main.rs lines 180-199 that
increments no counter and reports nothing: it is not classified Extra and
the extra counter stays zero, against the claim that zero-byte new files
always fall through to Extra and are counted there. -/
theorem claim_C2_zero_size_new_file_uncounted :
    vdLookup (verify_and_update [("n", ⟨"h", 1, 0⟩)] [("o", ⟨"h", 1, 0⟩)]
        false).verdicts "n" = some Verdict.unreported ∧
    (verify_and_update [("n", ⟨"h", 1, 0⟩)] [("o", ⟨"h", 1, 0⟩)]
        false).counts = ⟨0, 0, 0, 0⟩ := by
  decide

/-- C3: a current entry whose path is in the reference map with a
different digest and an equal modification time is classified Mismatched,
and the run returns hasMismatch = true. -/
theorem claim_C3_mismatch_on_equal_mtime
    (current : List (String × FileMeta)) (r : SnapshotMap) (u : Bool)
    (p : String) (cm em : FileMeta)
    (hnd : (current.map Prod.fst).Nodup) (hmem : (p, cm) ∈ current)
    (hr : smLookup r p = some em) (hh : cm.hash ≠ em.hash)
    (hm : cm.modified = em.modified) :
    vdLookup (verify_and_update current r u).verdicts p =
      some Verdict.mismatched ∧
    (verify_and_update current r u).hasMismatch = true := by
  have hv : vdLookup (verifyLoop u (get_reference_by_hash r) current r).1 p
      = some Verdict.mismatched := by
    rw [vdLookup_verifyLoop_at_entry u (get_reference_by_hash r) current r
        p cm hnd hmem,
      classifyStep_mismatched_eq u (get_reference_by_hash r) hr hh hm]
  constructor
  · rw [verify_and_update_verdicts]
    exact hv
  · rw [verify_and_update_hasMismatch, decide_eq_true_eq,
      tallyCounts_mismatched]
    exact (misCount_pos_iff _).mpr ⟨p, vdLookup_some_mem hv⟩

/-- Witness for C3: one current file at path p whose digest changed while
the stored modification time stayed 5. -/
theorem claim_C3_mismatch_on_equal_mtime_witness :
    vdLookup (verify_and_update [("p", ⟨"x", 5, 1⟩)] [("p", ⟨"y", 5, 1⟩)]
        false).verdicts "p" = some Verdict.mismatched ∧
    (verify_and_update [("p", ⟨"x", 5, 1⟩)] [("p", ⟨"y", 5, 1⟩)]
        false).hasMismatch = true :=
  claim_C3_mismatch_on_equal_mtime _ _ false "p" ⟨"x", 5, 1⟩ ⟨"y", 5, 1⟩
    (by decide) (by decide) (by decide) (by decide) (by decide)

/-- C4: a current entry whose path is in the reference map with a
different digest and a different modification time is classified
SkippedStaleMetadata, and exactly when update is set the run-final
reference entry for that path is the current record, otherwise it stays
the stored record. -/
theorem claim_C4_skipped_on_stale_metadata
    (current : List (String × FileMeta)) (r : SnapshotMap) (u : Bool)
    (p : String) (cm em : FileMeta)
    (hnd : (current.map Prod.fst).Nodup) (hmem : (p, cm) ∈ current)
    (hr : smLookup r p = some em) (hh : cm.hash ≠ em.hash)
    (hm : cm.modified ≠ em.modified) :
    vdLookup (verify_and_update current r u).verdicts p =
      some Verdict.skippedStale ∧
    smLookup (verify_and_update current r u).reference p =
      (if u then some cm else some em) := by
  have hstep := classifyStep_skipped_eq u (get_reference_by_hash r) hr hh hm
  constructor
  · rw [verify_and_update_verdicts,
      vdLookup_verifyLoop_at_entry u (get_reference_by_hash r) current r
        p cm hnd hmem, hstep]
  · rw [verify_and_update_reference,
      smLookup_verifyLoop_snd_at_entry u (get_reference_by_hash r) current r
        p cm hnd hmem, hstep]
    cases u
    · simpa using hr
    · simp [smLookup_smInsert_self]

/-- Witness for C4: digest and modification time both changed, update set,
so the reference entry for p is overwritten with the current record. -/
theorem claim_C4_skipped_on_stale_metadata_witness :
    vdLookup (verify_and_update [("p", ⟨"x", 6, 1⟩)] [("p", ⟨"y", 5, 1⟩)]
        true).verdicts "p" = some Verdict.skippedStale ∧
    smLookup (verify_and_update [("p", ⟨"x", 6, 1⟩)] [("p", ⟨"y", 5, 1⟩)]
        true).reference "p" =
      (if true then some ⟨"x", 6, 1⟩ else some ⟨"y", 5, 1⟩) :=
  claim_C4_skipped_on_stale_metadata _ _ true "p" ⟨"x", 6, 1⟩ ⟨"y", 5, 1⟩
    (by decide) (by decide) (by decide) (by decide) (by decide)

/-- C5: a current entry at a path absent from the reference map, whose
digest has a bucket in the inverted index and whose size is nonzero, is
classified Moved carrying exactly the reference paths sharing that digest;
when update is set the current record is inserted under the new path,
otherwise the path stays absent; and every path not in the current scan
keeps its reference entry unchanged. -/
theorem claim_C5_moved_nonzero_digest_hit
    (current : List (String × FileMeta)) (r : SnapshotMap) (u : Bool)
    (p : String) (cm : FileMeta) (ps : List String)
    (hnd : (current.map Prod.fst).Nodup) (hmem : (p, cm) ∈ current)
    (hr : smLookup r p = none)
    (hidx : idxLookup (get_reference_by_hash r) cm.hash = some ps)
    (hs : cm.size ≠ 0) :
    vdLookup (verify_and_update current r u).verdicts p =
      some (Verdict.moved ps) ∧
    ps = pathsWithHash r cm.hash ∧
    smLookup (verify_and_update current r u).reference p =
      (if u then some cm else none) ∧
    (∀ q, q ∉ current.map Prod.fst →
      smLookup (verify_and_update current r u).reference q = smLookup r q) := by
  have hstep := classifyStep_moved_eq u (get_reference_by_hash r) hr hidx hs
  refine ⟨?_, ?_, ?_, ?_⟩
  · rw [verify_and_update_verdicts,
      vdLookup_verifyLoop_at_entry u (get_reference_by_hash r) current r
        p cm hnd hmem, hstep]
  · have h2 := hidx
    rw [idxLookup_get_reference_by_hash] at h2
    by_cases h : pathsWithHash r cm.hash = []
    · rw [if_pos h] at h2
      simp at h2
    · rw [if_neg h] at h2
      exact (Option.some.inj h2).symm
  · rw [verify_and_update_reference,
      smLookup_verifyLoop_snd_at_entry u (get_reference_by_hash r) current r
        p cm hnd hmem, hstep]
    cases u
    · simpa using hr
    · simp [smLookup_smInsert_self]
  · intro q hq
    rw [verify_and_update_reference]
    exact smLookup_verifyLoop_snd_notMem u (get_reference_by_hash r)
      current r q hq

/-- Witness for C5: the file previously at old reappears at new with the
same nonzero-size digest; keep is an untouched reference path. -/
theorem claim_C5_moved_nonzero_digest_hit_witness :
    vdLookup (verify_and_update [("new", ⟨"h", 1, 3⟩)]
        [("old", ⟨"h", 1, 3⟩), ("keep", ⟨"g", 1, 2⟩)] true).verdicts "new" =
      some (Verdict.moved ["old"]) ∧
    smLookup (verify_and_update [("new", ⟨"h", 1, 3⟩)]
        [("old", ⟨"h", 1, 3⟩), ("keep", ⟨"g", 1, 2⟩)] true).reference "keep" =
      smLookup [("old", ⟨"h", 1, 3⟩), ("keep", ⟨"g", 1, 2⟩)] "keep" := by
  have h := claim_C5_moved_nonzero_digest_hit [("new", ⟨"h", 1, 3⟩)]
    [("old", ⟨"h", 1, 3⟩), ("keep", ⟨"g", 1, 2⟩)] true "new" ⟨"h", 1, 3⟩
    ["old"] (by decide) (by decide) (by decide) (by decide) (by decide)
  exact ⟨h.1, h.2.2.2 "keep" (by decide)⟩

/-- C6: the run returns hasMismatch = true exactly when some entry was
classified Mismatched; and when every current path carries the same digest
as its reference entry, the mismatched counter is zero and hasMismatch is
false. -/
theorem claim_C6_hasMismatch_iff_mismatched
    (current : List (String × FileMeta)) (r : SnapshotMap) (u : Bool) :
    ((verify_and_update current r u).hasMismatch = true ↔
      ∃ p, (p, Verdict.mismatched) ∈ (verify_and_update current r u).verdicts) ∧
    ((∀ pm ∈ current, ∃ em, smLookup r pm.1 = some em ∧ em.hash = pm.2.hash) →
      (verify_and_update current r u).counts.mismatched = 0 ∧
      (verify_and_update current r u).hasMismatch = false) := by
  constructor
  · rw [verify_and_update_hasMismatch, verify_and_update_verdicts,
      decide_eq_true_eq, tallyCounts_mismatched]
    exact misCount_pos_iff _
  · intro hall
    have hl := (verifyLoop_all_matched u (get_reference_by_hash r) current r
      (fun pm hpm => by
        obtain ⟨em, hem, hh⟩ := hall pm hpm
        exact ⟨em, hem, hh.symm⟩)).1
    have hmz : misCount
        (verifyLoop u (get_reference_by_hash r) current r).1 = 0 := by
      rw [hl, misCount_map_matched]
    constructor
    · rw [verify_and_update_counts, tallyCounts_mismatched]
      exact hmz
    · rw [verify_and_update_hasMismatch, tallyCounts_mismatched, hmz]
      rfl

/-- Witness for C6: a single current file whose digest equals its
reference digest yields a zero mismatched counter and a false
hasMismatch. -/
theorem claim_C6_hasMismatch_iff_mismatched_witness :
    (verify_and_update [("p", ⟨"x", 2, 1⟩)] [("p", ⟨"x", 1, 1⟩)]
        false).counts.mismatched = 0 ∧
    (verify_and_update [("p", ⟨"x", 2, 1⟩)] [("p", ⟨"x", 1, 1⟩)]
        false).hasMismatch = false :=
  (claim_C6_hasMismatch_iff_mismatched [("p", ⟨"x", 2, 1⟩)]
      [("p", ⟨"x", 1, 1⟩)] false).2
    (by
      rintro pm hpm
      rcases List.mem_singleton.mp hpm with rfl
      exact ⟨⟨"x", 1, 1⟩, rfl, rfl⟩)

/-- C7: the parallel scanner yields the map whose entry at a path is the
oracle record exactly when that path was listed and its fingerprinting
succeeded; failed paths are absent; and the map content is invariant
under any permutation of the arrival order of the workers. -/
theorem claim_C7_scanner_content (calcMeta : String → Option FileMeta)
    (paths₁ paths₂ : List String) (hperm : paths₁.Perm paths₂) :
    (∀ p, smLookup (hash_files_parallel calcMeta paths₁) p =
      (if p ∈ paths₁ then calcMeta p else none)) ∧
    (∀ p, smLookup (hash_files_parallel calcMeta paths₁) p =
      smLookup (hash_files_parallel calcMeta paths₂) p) := by
  constructor
  · exact hash_files_parallel_lookup calcMeta paths₁
  · intro p
    rw [hash_files_parallel_lookup, hash_files_parallel_lookup]
    simp [hperm.mem_iff]

/-- Witness for C7: path a succeeds, path b fails and is dropped, and the
reversed arrival order yields the same content. -/
theorem claim_C7_scanner_content_witness :
    smLookup (hash_files_parallel onlyA ["a", "b"]) "b" =
      (if "b" ∈ ["a", "b"] then onlyA "b" else none) ∧
    smLookup (hash_files_parallel onlyA ["a", "b"]) "a" =
      smLookup (hash_files_parallel onlyA ["b", "a"]) "a" := by
  have h := claim_C7_scanner_content onlyA ["a", "b"] ["b", "a"]
    (List.Perm.swap "b" "a" [])
  exact ⟨h.1 "b", h.2 "a"⟩

/-- C8: in the inverted index of a reference map, every reference path
occurs exactly once in the bucket of its own digest, and every path in the
bucket of a digest is a reference path carrying that digest. -/
theorem claim_C8_inverted_index_exact (r : SnapshotMap)
    (hnd : (r.map Prod.fst).Nodup) :
    (∀ p m, smLookup r p = some m →
      ((idxLookup (get_reference_by_hash r) m.hash).getD []).count p = 1) ∧
    (∀ d ps p, idxLookup (get_reference_by_hash r) d = some ps → p ∈ ps →
      ∃ m, smLookup r p = some m ∧ m.hash = d) := by
  constructor
  · intro p m hm
    rw [idxLookup_get_reference_by_hash]
    have hmem : p ∈ pathsWithHash r m.hash :=
      mem_pathsWithHash.mpr ⟨m, smLookup_some_mem hm, rfl⟩
    have hne : pathsWithHash r m.hash ≠ [] := by
      intro h0
      rw [h0] at hmem
      simp at hmem
    rw [if_neg hne, Option.getD_some]
    exact count_pathsWithHash_eq_one hnd hm
  · intro d ps p hps hmem
    rw [idxLookup_get_reference_by_hash] at hps
    by_cases h : pathsWithHash r d = []
    · rw [if_pos h] at hps
      simp at hps
    · rw [if_neg h] at hps
      obtain rfl := Option.some.inj hps
      obtain ⟨m, hm, hh⟩ := mem_pathsWithHash.mp hmem
      exact ⟨m, mem_smLookup_some hnd hm, hh⟩

/-- Witness for C8: two reference paths share digest h; each occurs once
in the bucket of h. -/
theorem claim_C8_inverted_index_exact_witness :
    ((idxLookup (get_reference_by_hash
        [("a", ⟨"h", 1, 1⟩), ("b", ⟨"h", 1, 1⟩)]) "h").getD []).count "a" =
      1 :=
  (claim_C8_inverted_index_exact
      [("a", ⟨"h", 1, 1⟩), ("b", ⟨"h", 1, 1⟩)] (by decide)).1
    "a" ⟨"h", 1, 1⟩ (by decide)

/-- C9: with update false, fn verify_and_update leaves the reference map
exactly as it was and writes nothing back. -/
theorem claim_C9_no_mutation_without_update
    (current : List (String × FileMeta)) (r : SnapshotMap) :
    (verify_and_update current r false).reference = r ∧
    (verify_and_update current r false).written = none := by
  constructor
  · rw [verify_and_update_reference]
    exact verifyLoop_false_snd (get_reference_by_hash r) current r
  · rfl

/-- C10: the per-path verdicts, the counters and the hasMismatch result of
fn verify_and_update are the same with update true as with update false:
the mid-run inserts performed under update never influence the
classification of any later entry. -/
theorem claim_C10_update_does_not_change_classification
    (current : List (String × FileMeta)) (r : SnapshotMap)
    (hnd : (current.map Prod.fst).Nodup) :
    (verify_and_update current r true).verdicts =
      (verify_and_update current r false).verdicts ∧
    (verify_and_update current r true).counts =
      (verify_and_update current r false).counts ∧
    (verify_and_update current r true).hasMismatch =
      (verify_and_update current r false).hasMismatch := by
  have hv : (verifyLoop true (get_reference_by_hash r) current r).1 =
      (verifyLoop false (get_reference_by_hash r) current r).1 :=
    verifyLoop_fst_update_indep true (get_reference_by_hash r) current r hnd
  refine ⟨?_, ?_, ?_⟩
  · rw [verify_and_update_verdicts, verify_and_update_verdicts, hv]
  · rw [verify_and_update_counts, verify_and_update_counts, hv]
  · rw [verify_and_update_hasMismatch, verify_and_update_hasMismatch, hv]

/-- Witness for C10: a run whose entries hit the stale-metadata overwrite
and the moved insert under update still classifies identically to the
update-free run. -/
theorem claim_C10_update_does_not_change_classification_witness :
    (verify_and_update [("a", ⟨"y", 2, 1⟩), ("n", ⟨"m", 1, 2⟩)]
        [("a", ⟨"x", 1, 1⟩), ("o", ⟨"m", 1, 2⟩)] true).verdicts =
      (verify_and_update [("a", ⟨"y", 2, 1⟩), ("n", ⟨"m", 1, 2⟩)]
        [("a", ⟨"x", 1, 1⟩), ("o", ⟨"m", 1, 2⟩)] false).verdicts ∧
    (verify_and_update [("a", ⟨"y", 2, 1⟩), ("n", ⟨"m", 1, 2⟩)]
        [("a", ⟨"x", 1, 1⟩), ("o", ⟨"m", 1, 2⟩)] true).counts =
      (verify_and_update [("a", ⟨"y", 2, 1⟩), ("n", ⟨"m", 1, 2⟩)]
        [("a", ⟨"x", 1, 1⟩), ("o", ⟨"m", 1, 2⟩)] false).counts ∧
    (verify_and_update [("a", ⟨"y", 2, 1⟩), ("n", ⟨"m", 1, 2⟩)]
        [("a", ⟨"x", 1, 1⟩), ("o", ⟨"m", 1, 2⟩)] true).hasMismatch =
      (verify_and_update [("a", ⟨"y", 2, 1⟩), ("n", ⟨"m", 1, 2⟩)]
        [("a", ⟨"x", 1, 1⟩), ("o", ⟨"m", 1, 2⟩)] false).hasMismatch :=
  claim_C10_update_does_not_change_classification
    [("a", ⟨"y", 2, 1⟩), ("n", ⟨"m", 1, 2⟩)]
    [("a", ⟨"x", 1, 1⟩), ("o", ⟨"m", 1, 2⟩)] (by decide)
